import Mathlib

/-!
Verification of the gravity-bridge `gorc` key-management subsystem.

The embedded code is:
* `src/orchestrator/gorc/src/commands/keys/eth/list.rs` — `ListEthKeyCmd::run`,
  modelled byte-for-byte including the Rust `Path::extension` / `Path::file_stem`
  / `OsStr::to_str` semantics and the `expect`/`unwrap` panic sites.
* `src/orchestrator/gorc/src/commands/keys/cosmos.rs` — the `CosmosKeysCmd`
  subcommand enum.

Parts of the keystore engine that the repository does not ship under `src/`
(the record store, the facade operations, mnemonic derivation, the secret
codec, `ShowEthKeyCmd`) are modelled from the specification; each such
definition carries a doc comment starting `Modelled from the spec:`.
-/

namespace GravityKeys

/-- A byte string (each element intended `< 256`), the model of Rust `[u8]`
and of `OsStr` contents. -/
abbrev Bytes := List Nat

/-- The closed set of supported chains (spec §3). -/
inductive Chain where
  | cosmos
  | ethereum
deriving DecidableEq, Repr

/-- The persisted unit of the keystore (spec §3 `KeyRecord`). -/
structure KeyRecord where
  name : String
  chain : Chain
  publicKey : Bytes
  address : String
  encryptedSecret : Bytes
  derivationPath : Option String
deriving DecidableEq, Repr

/-- Contents of one on-disk record file, as seen by a reader: either it
parses to a `KeyRecord` or it is corrupt (spec §4.4 `get`/`list`). -/
inductive RecordFile where
  | valid (r : KeyRecord)
  | corrupt
deriving DecidableEq, Repr

/-! ## Rust `std::path` semantics

`Path::extension` and `Path::file_stem` both go through the standard
library's `split_file_at_dot` on the final path component:
if the component is `".."` there is no extension; otherwise the component
is split at the last `'.'` occurring at index ≥ 1; if no such dot exists
there is no extension and the stem is the whole component. -/

/-- The byte value of `'.'`. -/
def dotByte : Nat := 46

/-- Index of the last occurrence of `'.'` at position ≥ 1 in a byte string
(Rust `slice[1..].iter().rposition(|b| *b == b'.')`, shifted back). -/
def lastDotIdx (bs : Bytes) : Option Nat :=
  (List.range bs.length).foldl
    (fun acc i => if 1 ≤ i ∧ bs.getD i 0 = dotByte then some i else acc) none

/-- Rust `split_file_at_dot`: the (stem, extension) split of a file name. -/
def splitFileAtDot (bs : Bytes) : Bytes × Option Bytes :=
  if bs = [dotByte, dotByte] then (bs, none)
  else
    match lastDotIdx bs with
    | none => (bs, none)
    | some i => (bs.take i, some (bs.drop (i + 1)))

/-- Model of a Rust `Path` value restricted to what `ListEthKeyCmd` uses:
its final component (`file_name()`), `none` when the path has no file name. -/
structure RPath where
  fileName : Option Bytes
deriving DecidableEq, Repr

/-- Rust `Path::extension`. -/
def RPath.extension (p : RPath) : Option Bytes :=
  match p.fileName with
  | none => none
  | some bs => (splitFileAtDot bs).2

/-- Rust `Path::file_stem`. -/
def RPath.fileStem (p : RPath) : Option Bytes :=
  match p.fileName with
  | none => none
  | some bs => some (splitFileAtDot bs).1

/-! ## UTF-8 (Rust `OsStr::to_str` runs `str::from_utf8` validation) -/

/-- Is `b` a UTF-8 continuation byte (`0x80 ≤ b < 0xC0`)? -/
def isCont (b : Nat) : Bool := decide (0x80 ≤ b ∧ b < 0xC0)

/-- A Unicode scalar value: in range and not a surrogate. -/
def ScalarOk (c : Nat) : Prop := c < 0x110000 ∧ ¬(0xD800 ≤ c ∧ c < 0xE000)

instance (c : Nat) : Decidable (ScalarOk c) := by
  unfold ScalarOk; infer_instance

/-- Standard UTF-8 encoding of one scalar value. -/
def utf8EncodeCp (c : Nat) : Bytes :=
  if c < 0x80 then [c]
  else if c < 0x800 then [0xC0 + c / 64, 0x80 + c % 64]
  else if c < 0x10000 then
    [0xE0 + c / 4096, 0x80 + (c / 64) % 64, 0x80 + c % 64]
  else
    [0xF0 + c / 262144, 0x80 + (c / 4096) % 64, 0x80 + (c / 64) % 64,
     0x80 + c % 64]

/-- Standard UTF-8 encoding of a scalar sequence. -/
def utf8Encode (cs : List Nat) : Bytes := cs.flatMap utf8EncodeCp

/-- One step of the strict UTF-8 decoder on a lead byte `b` followed by
`bs` (rejecting overlong forms, surrogates and out-of-range values exactly
as `str::from_utf8` does); `rec` decodes whatever follows the current
sequence. -/
def utf8DecodeAux (rec : Bytes → Option (List Nat)) (b : Nat) (bs : Bytes) :
    Option (List Nat) :=
  if b < 0x80 then (rec bs).map (b :: ·)
  else if b < 0xC2 then none
  else if b < 0xE0 then
    match bs with
    | b1 :: bs2 =>
      if isCont b1 then
        (rec bs2).map (((b - 0xC0) * 64 + (b1 - 0x80)) :: ·)
      else none
    | [] => none
  else if b < 0xF0 then
    match bs with
    | b1 :: b2 :: bs3 =>
      if isCont b1 && isCont b2 &&
         decide (0x800 ≤ (b - 0xE0) * 4096 + (b1 - 0x80) * 64 + (b2 - 0x80)) &&
         decide (ScalarOk ((b - 0xE0) * 4096 + (b1 - 0x80) * 64 + (b2 - 0x80)))
      then (rec bs3).map
        (((b - 0xE0) * 4096 + (b1 - 0x80) * 64 + (b2 - 0x80)) :: ·)
      else none
    | _ => none
  else if b < 0xF5 then
    match bs with
    | b1 :: b2 :: b3 :: bs4 =>
      if isCont b1 && isCont b2 && isCont b3 &&
         decide (0x10000 ≤ (b - 0xF0) * 262144 + (b1 - 0x80) * 4096 +
                 (b2 - 0x80) * 64 + (b3 - 0x80)) &&
         decide ((b - 0xF0) * 262144 + (b1 - 0x80) * 4096 +
                 (b2 - 0x80) * 64 + (b3 - 0x80) < 0x110000)
      then (rec bs4).map
        (((b - 0xF0) * 262144 + (b1 - 0x80) * 4096 +
          (b2 - 0x80) * 64 + (b3 - 0x80)) :: ·)
      else none
    | _ => none
  else none

/-- The decoder, driven by a fuel counter (one unit per decoded scalar; a
fuel of the byte length is always sufficient, since every scalar consumes
at least one byte). -/
def utf8DecodeF : Nat → Bytes → Option (List Nat)
  | _, [] => some []
  | 0, _ :: _ => none
  | fuel + 1, b :: bs => utf8DecodeAux (utf8DecodeF fuel) b bs

/-- Strict UTF-8 decoder: the decoded scalar values, or `none` on invalid
input. -/
def utf8Decode (bs : Bytes) : Option (List Nat) := utf8DecodeF bs.length bs

/-- A byte string is valid UTF-8 when it is the encoding of some scalar
sequence. -/
def ValidUtf8 (bs : Bytes) : Prop :=
  ∃ cs : List Nat, (∀ c ∈ cs, ScalarOk c) ∧ utf8Encode cs = bs

/-- Rust `OsStr::to_str`: UTF-8 validation, then view as a string. We keep
the decoded scalar values; `Char.ofNat` turns them into Lean characters
(the decoder only emits valid scalars, where `Char.ofNat` is faithful). -/
def osStrToStr (bs : Bytes) : Option String :=
  (utf8Decode bs).map (fun cs => String.mk (cs.map Char.ofNat))

/-- The bytes of an ASCII Lean string (used for the literal `"pem"`). -/
def asciiBytes (s : String) : Bytes := s.data.map Char.toNat

/-! ## `ListEthKeyCmd::run` (src/orchestrator/gorc/src/commands/keys/eth/list.rs)

The Rust body is

```
for entry in keystore.read_dir().expect("Could not read keystore") \x7b
    let path = entry.unwrap().path();
    if path.is_file() \x7b
        if let Some(extension) = path.extension() \x7b
            if extension == "pem" \x7b
                let name = path.file_stem().unwrap();
                let name = name.to_str().unwrap();
                let args = vec![name.to_string()];
                let show_cmd = ShowEthKeyCmd \x7b args \x7d;
                show_cmd.run();
            \x7d
        \x7d
    \x7d
\x7d
```

`expect`/`unwrap` abort the process on `Err`/`None`, so the run result is a
sum of a panic (with its message) and a normal completion carrying the
sequence of per-key outputs produced by the `ShowEthKeyCmd` invocations. -/

/-- One entry of the keystore directory as `read_dir` yields it: the final
path component, whether the path is a regular file, and — for files — what a
reader parsing the file would find. -/
structure DirEntry where
  fileName : Bytes
  isFile : Bool
  content : RecordFile
deriving DecidableEq, Repr

/-- Result of `keystore.read_dir()` and of iterating it: the whole call can
fail (`ioErr`), and each yielded entry is itself an `io::Result` (`none`
models a per-entry error). -/
inductive ReadDirResult where
  | ioErr
  | ok (entries : List (Option DirEntry))
deriving DecidableEq, Repr

/-- The observable result of running a command whose Rust type is `()`:
either a process abort (panic, with its message) or normal completion with
the emitted outputs. -/
inductive Outcome (α : Type) where
  | panicked (msg : String)
  | ok (a : α)
deriving DecidableEq, Repr

/-- What one `ShowEthKeyCmd` invocation surfaces: either the public
identity of a key (name, chain, public key, address — spec §4.4/§4.5) or a
report that the record is corrupt (spec §7 `CorruptRecord`). -/
inductive ShowReport where
  | identity (name : String) (chain : Chain) (publicKey : Bytes)
      (address : String)
  | corruptReport (name : String)
deriving DecidableEq, Repr

/-- Modelled from the spec: `ShowEthKeyCmd::run` (its file
`src/commands/keys/eth/show.rs` is not under `src/`), as invoked by List
with a key name. Per spec §4.4 `list` it surfaces metadata only — never the
encrypted secret, never decrypting — and per §4.4/§7 a record that fails to
parse is reported as `CorruptRecord` without aborting, leaving the other
records accessible. -/
def showEthForList (name : String) (c : RecordFile) : ShowReport :=
  match c with
  | .valid r => .identity r.name r.chain r.publicKey r.address
  | .corrupt => .corruptReport name

/-- The path of a directory entry, `entry.path() = keystore.join(file_name)`;
its final component is the entry's file name. -/
def entryPath (e : DirEntry) : RPath := ⟨some e.fileName⟩

/-- The loop body of `ListEthKeyCmd::run` for one (successfully retrieved)
directory entry. Mirrors the Rust control flow: skip non-files, skip paths
without an extension, skip extensions other than `"pem"`; otherwise take
`file_stem().unwrap()`, `to_str().unwrap()` (both panic sites) and run
`ShowEthKeyCmd` on the name. -/
def runEntry (e : DirEntry) : Outcome (List ShowReport) :=
  if e.isFile then
    match (entryPath e).extension with
    | some ext =>
      if ext = asciiBytes "pem" then
        match (entryPath e).fileStem with
        | none => .panicked "called `Option::unwrap()` on a `None` value"
        | some stem =>
          match osStrToStr stem with
          | none => .panicked "called `Option::unwrap()` on a `None` value"
          | some name => .ok [showEthForList name e.content]
      else .ok []
    | none => .ok []
  else .ok []

/-- The `for entry in ...` loop: entries are processed in order; the first
panic aborts the run; outputs of the `show_cmd.run()` calls accumulate. -/
def listLoop : List (Option DirEntry) → Outcome (List ShowReport)
  | [] => .ok []
  | none :: _ => .panicked "called `Result::unwrap()` on an `Err` value"
  | some e :: rest =>
    match runEntry e with
    | .panicked m => .panicked m
    | .ok out =>
      match listLoop rest with
      | .panicked m => .panicked m
      | .ok outs => .ok (out ++ outs)

/-- `ListEthKeyCmd::run`: `read_dir().expect("Could not read keystore")`
then the loop. -/
def listEthRun (d : ReadDirResult) : Outcome (List ShowReport) :=
  match d with
  | .ioErr => .panicked "Could not read keystore"
  | .ok entries => listLoop entries

/-! ## The keystore engine (spec §§4.1–4.5, §7)

The engine itself (record store, derivation, secret codec, facade) is not
under `src/`; everything below is modelled from the specification. -/

/-- The error taxonomy of spec §7. -/
inductive KeystoreError where
  | entropySourceError
  | invalidMnemonic
  | nameAlreadyExists
  | notFound
  | decryptionFailed
  | corruptRecord
  | storageIOError
deriving DecidableEq, Repr

/-- Modelled from the spec: one chain namespace of the Record Store
(§4.4) — a directory of records keyed by their unique human-chosen name. -/
abbrev Store := List (String × KeyRecord)

/-- Modelled from the spec: `Record Store get`-style name lookup (§4.4). -/
def lookupKey : Store → String → Option KeyRecord
  | [], _ => none
  | (k, r) :: rest, n => if k = n then some r else lookupKey rest n

/-- Modelled from the spec: the process's entropy source (§4.1),
`available = false` models an unavailable system random source. -/
structure Rng where
  available : Bool
  seed : Nat
deriving DecidableEq, Repr

/-- Modelled from the spec: `generate_random` (§4.1) — draws a 32-byte
scalar from the entropy source, failing with `EntropySourceError` when the
source is unavailable. The byte expansion is an executable stand-in for a
CSPRNG. -/
def generate_random (rng : Rng) : Except KeystoreError (Bytes × Rng) :=
  if rng.available then
    .ok ((List.range 32).map (fun j => (rng.seed * (2 * j + 3) + j * j + 5) % 256),
         ⟨true, (rng.seed * 48271 + 13) % 2147483647⟩)
  else .error .entropySourceError

/-- The BIP39-valid word counts (spec §4.1). -/
def validWordCounts : List Nat := [12, 15, 18, 21, 24]

/-- Modelled from the spec: mnemonic validation (§4.1) — the word count
must be 12/15/18/21/24 and the wordlist checksum must pass; the checksum
predicate itself (SHA-256 over the wordlist indices) is taken as a
parameter. -/
def validateMnemonic (checksumOk : List String → Bool) (ws : List String) :
    Bool :=
  decide (ws.length ∈ validWordCounts) && checksumOk ws

/-- The chain's BIP44 coin type. -/
def coinType (c : Chain) : Nat :=
  match c with
  | .cosmos => 118
  | .ethereum => 60

/-- Modelled from the spec: the standard mnemonic-to-seed expansion
(§4.1), an executable stand-in for PBKDF2. -/
def mnemonicSeed (ws : List String) : Nat :=
  ws.foldl
    (fun a w => w.data.foldl (fun a2 ch => (a2 * 131 + ch.toNat + 7) % 1000003) a)
    17

/-- Modelled from the spec: one hierarchical-deterministic child-key step
(§4.1), an executable stand-in for BIP32 child derivation. -/
def hdChild (seed idx : Nat) : Nat := (seed * 31 + idx + 1) % 1000003

/-- Modelled from the spec: the chain's HD derivation path string (§4.1),
written with `h` for hardened segments. -/
def hdPath (c : Chain) (accountIndex : Nat) : String :=
  "m/44h/" ++ toString (coinType c) ++ "h/0h/0/" ++ toString accountIndex

/-- Modelled from the spec: the leaf private key obtained by applying the
chain's HD path to the mnemonic seed (§4.1) — a deterministic function of
the mnemonic, chain and account index only. -/
def deriveKeyBytes (ws : List String) (c : Chain) (accountIndex : Nat) :
    Bytes :=
  let leaf := hdChild (hdChild (mnemonicSeed ws) (coinType c)) accountIndex
  (List.range 32).map (fun j => (leaf * (j + 3) + j) % 256)

/-- Modelled from the spec: `derive_from_mnemonic` (§4.1) — validates the
mnemonic (failing with `InvalidMnemonic`), then deterministically derives
the leaf private key and its derivation path. -/
def derive_from_mnemonic (checksumOk : List String → Bool) (ws : List String)
    (c : Chain) (accountIndex : Nat) :
    Except KeystoreError (Bytes × String) :=
  if validateMnemonic checksumOk ws then
    .ok (deriveKeyBytes ws c accountIndex, hdPath c accountIndex)
  else .error .invalidMnemonic

/-- Modelled from the spec: `public_key_from_private` (§4.2) — an
executable stand-in for secp256k1 scalar multiplication (a deterministic
function of the private key). -/
def public_key_from_private (c : Chain) (k : Bytes) : Bytes :=
  (coinType c % 2 + 2) :: k.map (fun b => (b * 7 + 3) % 256)

/-- Modelled from the spec: `address_from_public_key` (§4.2) — bech32-style
for Cosmos, 0x-hex-style for Ethereum; the digest is an executable
stand-in for hash-then-encode. -/
def address_from_public_key (c : Chain) (pk : Bytes) : String :=
  let digest := String.mk (pk.map (fun b => Char.ofNat (97 + b % 26)))
  match c with
  | .cosmos => "cosmos1" ++ digest
  | .ethereum => "0x" ++ digest

/-- Modelled from the spec: the authentication tag of the Secret Codec
(§4.3), an executable stand-in for KDF-plus-AEAD tag computation over the
passphrase, salt and nonce. -/
def macBytes (pass : String) (salt nonce : Bytes) : Bytes :=
  (List.range 4).map
    (fun i =>
      ((pass.data.foldl (fun a ch => (a * 131 + ch.toNat) % 65521) (i + 11)) +
        salt.foldl (fun a b => (a * 31 + b) % 65521) 3 +
        nonce.foldl (fun a b => (a * 37 + b) % 65521) 5) % 256)

/-- Modelled from the spec: `encrypt` (§4.3) — a self-describing blob
embedding salt, nonce, tag and ciphertext; the cipher is an executable
stand-in for authenticated encryption. -/
def encryptSecret (k : Bytes) (pass : String) (salt nonce : Bytes) : Bytes :=
  salt.length :: nonce.length :: salt ++ nonce ++ macBytes pass salt nonce ++
    k.map (fun b => (b + 7) % 256)

/-- Modelled from the spec: `decrypt` (§4.3) — fails with
`DecryptionFailed` when authentication fails, not distinguishing wrong
passphrase from corrupted data. -/
def decryptSecret (blob : Bytes) (pass : String) :
    Except KeystoreError Bytes :=
  match blob with
  | l1 :: l2 :: rest =>
    let salt := rest.take l1
    let rest2 := rest.drop l1
    let nonce := rest2.take l2
    let rest3 := rest2.drop l2
    if rest3.take 4 = macBytes pass salt nonce then
      .ok ((rest3.drop 4).map (fun b => (b + 249) % 256))
    else .error .decryptionFailed
  | _ => .error .decryptionFailed

/-- What Show surfaces: the public identity of a key — name, chain, public
key, address; no other field exists in this type (spec §3 invariant, §4.5
Show). -/
structure KeyIdentity where
  name : String
  chain : Chain
  publicKey : Bytes
  address : String
deriving DecidableEq, Repr

/-- Modelled from the spec: the facade `Show` (§4.5) —
`store.get → decrypt → adapt.public_key_from_private` → display public
key/address only. -/
def showOp (st : Store) (n : String) (c : Chain) (pass : String) :
    Except KeystoreError KeyIdentity :=
  match lookupKey st n with
  | none => .error .notFound
  | some r =>
    match decryptSecret r.encryptedSecret pass with
    | .error e => .error e
    | .ok k =>
      let pk := public_key_from_private c k
      .ok ⟨r.name, r.chain, pk, address_from_public_key c pk⟩

/-- Modelled from the spec: the facade `Import` (§4.5) —
derive → adapt → encrypt → store, with mnemonic validation preceding any
store mutation; the second component is the resulting store (unchanged on
every failure). -/
def importOp (checksumOk : List String → Bool) (st : Store) (n : String)
    (c : Chain) (ws : List String) (pass : String) (salt nonce : Bytes) :
    Except KeystoreError Unit × Store :=
  match derive_from_mnemonic checksumOk ws c 0 with
  | .error e => (.error e, st)
  | .ok (k, path) =>
    if (lookupKey st n).isSome then (.error .nameAlreadyExists, st)
    else
      let pk := public_key_from_private c k
      (.ok (),
       (n, ⟨n, c, pk, address_from_public_key c pk,
            encryptSecret k pass salt nonce, some path⟩) :: st)

/-- Modelled from the spec: the facade `Add` (§4.5) —
generate → adapt → encrypt → store; freshly generated keys carry no
derivation path (§3). -/
def addOp (rng : Rng) (st : Store) (n : String) (c : Chain) (pass : String)
    (salt nonce : Bytes) : Except KeystoreError Unit × Store × Rng :=
  match generate_random rng with
  | .error e => (.error e, st, rng)
  | .ok (k, rng2) =>
    if (lookupKey st n).isSome then (.error .nameAlreadyExists, st, rng2)
    else
      let pk := public_key_from_private c k
      (.ok (),
       (n, ⟨n, c, pk, address_from_public_key c pk,
            encryptSecret k pass salt nonce, none⟩) :: st, rng2)

/-- Modelled from the spec: `Record Store rename` (§4.4) / facade `Rename`
(§4.5) — `NotFound` if the old name is absent, `NameAlreadyExists` if the
new name is taken, otherwise an atomic relabel; on failure the store is
returned unchanged, and key material is never touched. -/
def renameOp (st : Store) (old nw : String) :
    Except KeystoreError Unit × Store :=
  match lookupKey st old with
  | none => (.error .notFound, st)
  | some r =>
    if (lookupKey st nw).isSome then (.error .nameAlreadyExists, st)
    else
      (.ok (), (nw, { r with name := nw }) ::
               st.filter (fun p => decide (p.1 ≠ old)))

/-- Modelled from the spec: the facade `Delete` (§4.5) — `NotFound` if
absent, otherwise atomic removal. -/
def deleteOp (st : Store) (n : String) :
    Except KeystoreError Unit × Store :=
  match lookupKey st n with
  | none => (.error .notFound, st)
  | some _ => (.ok (), st.filter (fun p => decide (p.1 ≠ n)))

/-- Modelled from the spec: the facade `List` (§4.5) — `store.list` →
name/address pairs only, never decrypting secrets. -/
def listOp (st : Store) : List (String × String) :=
  st.map (fun p => (p.2.name, p.2.address))

/-! ## `CosmosKeysCmd` (src/orchestrator/gorc/src/commands/keys/cosmos.rs) -/

/-- Modelled from the spec: payload of `add [name]` (its module is not
under `src/`); carries the positional arguments. -/
structure AddCosmosKeyCmd where
  args : List String
deriving DecidableEq, Repr

/-- Modelled from the spec: payload of `import [name] (bip39-mnemnoic)`. -/
structure ImportCosmosKeyCmd where
  args : List String
deriving DecidableEq, Repr

/-- Modelled from the spec: payload of `delete [name]`. -/
structure DeleteCosmosKeyCmd where
  args : List String
deriving DecidableEq, Repr

/-- Modelled from the spec: payload of `rename [name] [new-name]`. -/
structure RenameCosmosKeyCmd where
  args : List String
deriving DecidableEq, Repr

/-- Modelled from the spec: payload of `list`. -/
structure ListCosmosKeyCmd where
  args : List String
deriving DecidableEq, Repr

/-- Modelled from the spec: payload of `show [name]`. -/
structure ShowCosmosKeyCmd where
  args : List String
deriving DecidableEq, Repr

/-- The `CosmosKeysCmd` enum of `cosmos.rs`: exactly the six subcommands
Add, Import, Delete, Rename, List, Show. -/
inductive CosmosKeysCmd where
  | Add (cmd : AddCosmosKeyCmd)
  | Import (cmd : ImportCosmosKeyCmd)
  | Delete (cmd : DeleteCosmosKeyCmd)
  | Rename (cmd : RenameCosmosKeyCmd)
  | List (cmd : ListCosmosKeyCmd)
  | Show (cmd : ShowCosmosKeyCmd)
deriving DecidableEq, Repr

/-- Success values returned by the six operations. -/
inductive CmdOutput where
  | unit
  | keyList (entries : List (String × String))
  | identity (k : KeyIdentity)
deriving DecidableEq, Repr

/-- The `i`-th positional argument, defaulting to the empty string. -/
def argName (args : List String) (i : Nat) : String := args.getD i ""

/-- Modelled from the spec: dispatch of each `CosmosKeysCmd` subcommand to
its facade operation (§4.5, §6) — each returns either a success value or a
typed `KeystoreError`, alongside the resulting store. -/
def runCosmosKeysCmd (checksumOk : List String → Bool) (rng : Rng)
    (pass : String) (salt nonce : Bytes) (st : Store) :
    CosmosKeysCmd → Except KeystoreError CmdOutput × Store
  | .Add cmd =>
    match addOp rng st (argName cmd.args 0) .cosmos pass salt nonce with
    | (r, st2, _) => (r.map (fun _ => .unit), st2)
  | .Import cmd =>
    match importOp checksumOk st (argName cmd.args 0) .cosmos
        ((argName cmd.args 1).splitOn " ") pass salt nonce with
    | (r, st2) => (r.map (fun _ => .unit), st2)
  | .Delete cmd =>
    match deleteOp st (argName cmd.args 0) with
    | (r, st2) => (r.map (fun _ => .unit), st2)
  | .Rename cmd =>
    match renameOp st (argName cmd.args 0) (argName cmd.args 1) with
    | (r, st2) => (r.map (fun _ => .unit), st2)
  | .List _ => (.ok (.keyList (listOp st)), st)
  | .Show cmd => ((showOp st (argName cmd.args 0) .cosmos pass).map .identity, st)

/-! ## Derived notions used by the theorems -/

/-- Does `ListEthKeyCmd::run` process this entry: a regular file whose
extension is exactly `"pem"`. -/
def isPemFile (e : DirEntry) : Bool :=
  e.isFile && decide ((entryPath e).extension = some (asciiBytes "pem"))

/-- The name List extracts for a processed entry
(`file_stem().to_str()`), defaulting to `""` when the stem is not UTF-8. -/
def stemName (e : DirEntry) : String :=
  (osStrToStr (splitFileAtDot e.fileName).1).getD ""

/-- The stem of every processed (pem-file) entry decodes as UTF-8 — the
precondition under which List does not panic. -/
def NameOk (e : DirEntry) : Prop :=
  isPemFile e = true → (osStrToStr (splitFileAtDot e.fileName).1).isSome = true

instance (e : DirEntry) : Decidable (NameOk e) := by
  unfold NameOk; infer_instance

/-- Modelled from the spec (refinement target for List, §4.4): one report
per pem file, in directory order — the metadata of each valid record and a
corrupt-record report for each unparseable one, nothing else. -/
def ethListSpec (es : List DirEntry) : List ShowReport :=
  es.flatMap
    (fun e => if isPemFile e then [showEthForList (stemName e) e.content] else [])

/-- Replace a record's encrypted secret by the empty blob. -/
def eraseRecordSecret (c : RecordFile) : RecordFile :=
  match c with
  | .valid r => .valid { r with encryptedSecret := [] }
  | .corrupt => .corrupt

/-- Erase every encrypted secret in a directory-read result. -/
def eraseSecrets (d : ReadDirResult) : ReadDirResult :=
  match d with
  | .ioErr => .ioErr
  | .ok es =>
    .ok (es.map (Option.map (fun e => { e with content := eraseRecordSecret e.content })))

/-! ## UTF-8 round trip: the decoder accepts every encoded scalar string -/

theorem utf8DecodeF_nil (fuel : Nat) : utf8DecodeF fuel [] = some [] := by
  cases fuel <;> rfl

theorem utf8DecodeF_cons (fuel b : Nat) (bs : Bytes) :
    utf8DecodeF (fuel + 1) (b :: bs) = utf8DecodeAux (utf8DecodeF fuel) b bs :=
  rfl

theorem utf8DecodeF_encodeCp (fuel c : Nat) (h : ScalarOk c) (rest : Bytes) :
    utf8DecodeF (fuel + 1) (utf8EncodeCp c ++ rest) =
      (utf8DecodeF fuel rest).map (c :: ·) := by
  obtain ⟨hlt, hsur⟩ := h
  by_cases h1 : c < 0x80
  · have henc : utf8EncodeCp c = [c] := by simp [utf8EncodeCp, h1]
    rw [henc, List.cons_append, List.nil_append, utf8DecodeF_cons]
    simp [utf8DecodeAux, h1]
  · by_cases h2 : c < 0x800
    · have henc : utf8EncodeCp c = [0xC0 + c / 64, 0x80 + c % 64] := by
        simp [utf8EncodeCp, h1, h2]
      have e1 : ¬ (0xC0 + c / 64 < 0x80) := by omega
      have e2 : ¬ (0xC0 + c / 64 < 0xC2) := by omega
      have e3 : 0xC0 + c / 64 < 0xE0 := by omega
      have e4 : isCont (0x80 + c % 64) = true := by
        simp only [isCont, decide_eq_true_eq]; omega
      have e5 : c / 64 * 64 + c % 64 = c := by omega
      rw [henc]
      simp only [List.cons_append, List.nil_append, utf8DecodeF_cons]
      simp [utf8DecodeAux, e1, e2, e3, e4, e5]
    · by_cases h3 : c < 0x10000
      · have henc : utf8EncodeCp c =
            [0xE0 + c / 4096, 0x80 + c / 64 % 64, 0x80 + c % 64] := by
          simp [utf8EncodeCp, h1, h2, h3]
        have e1 : ¬ (0xE0 + c / 4096 < 0x80) := by omega
        have e2 : ¬ (0xE0 + c / 4096 < 0xC2) := by omega
        have e3 : ¬ (0xE0 + c / 4096 < 0xE0) := by omega
        have e4 : 0xE0 + c / 4096 < 0xF0 := by omega
        have e5 : isCont (0x80 + c / 64 % 64) = true := by
          simp only [isCont, decide_eq_true_eq]; omega
        have e6 : isCont (0x80 + c % 64) = true := by
          simp only [isCont, decide_eq_true_eq]; omega
        have e7 : c / 4096 * 4096 + c / 64 % 64 * 64 + c % 64 = c := by omega
        have e8 : 0x800 ≤ c := by omega
        have e9 : ScalarOk c := ⟨hlt, hsur⟩
        rw [henc]
        simp only [List.cons_append, List.nil_append, utf8DecodeF_cons]
        simp [utf8DecodeAux, e1, e2, e3, e4, e5, e6, e7, e8, e9]
      · have henc : utf8EncodeCp c =
            [0xF0 + c / 262144, 0x80 + c / 4096 % 64, 0x80 + c / 64 % 64,
             0x80 + c % 64] := by
          simp [utf8EncodeCp, h1, h2, h3]
        have e1 : ¬ (0xF0 + c / 262144 < 0x80) := by omega
        have e2 : ¬ (0xF0 + c / 262144 < 0xC2) := by omega
        have e3 : ¬ (0xF0 + c / 262144 < 0xE0) := by omega
        have e4 : ¬ (0xF0 + c / 262144 < 0xF0) := by omega
        have e5 : 0xF0 + c / 262144 < 0xF5 := by omega
        have e6 : isCont (0x80 + c / 4096 % 64) = true := by
          simp only [isCont, decide_eq_true_eq]; omega
        have e7 : isCont (0x80 + c / 64 % 64) = true := by
          simp only [isCont, decide_eq_true_eq]; omega
        have e8 : isCont (0x80 + c % 64) = true := by
          simp only [isCont, decide_eq_true_eq]; omega
        have e9 : c / 262144 * 262144 + c / 4096 % 64 * 4096 +
            c / 64 % 64 * 64 + c % 64 = c := by omega
        have e10 : 0x10000 ≤ c := by omega
        rw [henc]
        simp only [List.cons_append, List.nil_append, utf8DecodeF_cons]
        simp [utf8DecodeAux, e1, e2, e3, e4, e5, e6, e7, e8, e9, e10, hlt]

theorem utf8DecodeF_encode (cs : List Nat) (h : ∀ c ∈ cs, ScalarOk c) :
    ∀ fuel, cs.length ≤ fuel → utf8DecodeF fuel (utf8Encode cs) = some cs := by
  induction cs with
  | nil => intro fuel _; simpa [utf8Encode] using utf8DecodeF_nil fuel
  | cons c cs ih =>
    intro fuel hf
    have hc : ScalarOk c := h c (List.mem_cons_self c cs)
    have hcs : ∀ x ∈ cs, ScalarOk x :=
      fun x hx => h x (List.mem_cons_of_mem c hx)
    cases fuel with
    | zero => simp at hf
    | succ fuel =>
      have henc : utf8Encode (c :: cs) = utf8EncodeCp c ++ utf8Encode cs := by
        simp [utf8Encode]
      rw [henc, utf8DecodeF_encodeCp fuel c hc,
        ih hcs fuel (by simpa using Nat.lt_succ_iff.mp (Nat.lt_of_lt_of_le (Nat.lt_succ_of_le (Nat.le_refl _)) hf))]
      rfl

theorem encodeCp_length_pos (c : Nat) : 1 ≤ (utf8EncodeCp c).length := by
  unfold utf8EncodeCp
  split_ifs <;> simp

theorem length_le_encode_length (cs : List Nat) :
    cs.length ≤ (utf8Encode cs).length := by
  induction cs with
  | nil => simp [utf8Encode]
  | cons c cs ih =>
    have h1 := encodeCp_length_pos c
    simp only [utf8Encode, List.flatMap_cons, List.length_append,
      List.length_cons]
    have h2 : (utf8Encode cs).length = (cs.flatMap utf8EncodeCp).length := rfl
    omega

theorem utf8Decode_encode (cs : List Nat) (h : ∀ c ∈ cs, ScalarOk c) :
    utf8Decode (utf8Encode cs) = some cs :=
  utf8DecodeF_encode cs h (utf8Encode cs).length (length_le_encode_length cs)

/-! ## Lemmas about the List loop -/

theorem entryPath_fileStem (e : DirEntry) :
    (entryPath e).fileStem = some (splitFileAtDot e.fileName).1 := rfl

theorem runEntry_notFile (e : DirEntry) (h : e.isFile = false) :
    runEntry e = .ok [] := by
  simp [runEntry, h]

theorem runEntry_notPem (e : DirEntry)
    (h : (entryPath e).extension ≠ some (asciiBytes "pem")) :
    runEntry e = .ok [] := by
  unfold runEntry
  cases hf : e.isFile with
  | false => simp
  | true =>
    simp only [if_pos rfl]
    cases hx : (entryPath e).extension with
    | none => simp
    | some ext =>
      have : ext ≠ asciiBytes "pem" := by
        intro hcontra; exact h (by rw [hx, hcontra])
      simp [this]

theorem runEntry_skip (e : DirEntry) (h : isPemFile e = false) :
    runEntry e = .ok [] := by
  unfold isPemFile at h
  rcases Bool.and_eq_false_iff.mp h with h1 | h2
  · exact runEntry_notFile e h1
  · exact runEntry_notPem e (by simpa using h2)

theorem runEntry_pem (e : DirEntry) (name : String)
    (h1 : isPemFile e = true)
    (h3 : osStrToStr (splitFileAtDot e.fileName).1 = some name) :
    runEntry e = .ok [showEthForList name e.content] := by
  unfold isPemFile at h1
  rcases Bool.and_eq_true_iff.mp h1 with ⟨hf, hx⟩
  have hx2 : (entryPath e).extension = some (asciiBytes "pem") :=
    of_decide_eq_true hx
  simp [runEntry, hf, hx2, entryPath_fileStem, h3]

theorem runEntry_nameOk (e : DirEntry) (h : NameOk e) :
    runEntry e = .ok (if isPemFile e then
        [showEthForList (stemName e) e.content] else []) := by
  cases hpem : isPemFile e with
  | false => simpa [hpem] using runEntry_skip e hpem
  | true =>
    rcases Option.isSome_iff_exists.mp (h hpem) with ⟨name, hn⟩
    have hs : stemName e = name := by unfold stemName; rw [hn]; rfl
    simpa [hpem, hs] using runEntry_pem e name hpem hn

theorem listLoop_spec (es : List DirEntry) (h : ∀ e ∈ es, NameOk e) :
    listLoop (es.map some) = .ok (ethListSpec es) := by
  induction es with
  | nil => rfl
  | cons e rest ih =>
    have he : NameOk e := h e (List.mem_cons_self e rest)
    have hrest : ∀ x ∈ rest, NameOk x := fun x hx => h x (List.mem_cons_of_mem e hx)
    simp only [List.map_cons, listLoop, runEntry_nameOk e he, ih hrest,
      ethListSpec, List.flatMap_cons]

theorem runEntry_pem_panic (e : DirEntry)
    (h1 : isPemFile e = true)
    (h3 : osStrToStr (splitFileAtDot e.fileName).1 = none) :
    runEntry e = .panicked "called `Option::unwrap()` on a `None` value" := by
  unfold isPemFile at h1
  rcases Bool.and_eq_true_iff.mp h1 with ⟨hf, hx⟩
  have hx2 : (entryPath e).extension = some (asciiBytes "pem") :=
    of_decide_eq_true hx
  simp [runEntry, hf, hx2, entryPath_fileStem, h3]

theorem listLoop_skip_middle (pre post : List (Option DirEntry)) (e : DirEntry)
    (h : runEntry e = .ok []) :
    listLoop (pre ++ some e :: post) = listLoop (pre ++ post) := by
  induction pre with
  | nil =>
    simp only [List.nil_append, listLoop, h]
    cases hp : listLoop post <;> simp
  | cons a pre ih =>
    cases a with
    | none => simp [listLoop]
    | some e2 =>
      simp only [List.cons_append, listLoop, List.append_eq, ih]

theorem showEthForList_erase (name : String) (c : RecordFile) :
    showEthForList name (eraseRecordSecret c) = showEthForList name c := by
  cases c <;> rfl

theorem runEntry_content_congr (fn : Bytes) (fl : Bool) (c1 c2 : RecordFile)
    (h : ∀ name, showEthForList name c1 = showEthForList name c2) :
    runEntry ⟨fn, fl, c1⟩ = runEntry ⟨fn, fl, c2⟩ := by
  cases fl with
  | false =>
    rw [runEntry_notFile ⟨fn, false, c1⟩ rfl, runEntry_notFile ⟨fn, false, c2⟩ rfl]
  | true =>
    by_cases hext :
        (entryPath ⟨fn, true, c1⟩).extension = some (asciiBytes "pem")
    · have hext2 : (entryPath ⟨fn, true, c2⟩).extension =
          some (asciiBytes "pem") := hext
      have hp1 : isPemFile ⟨fn, true, c1⟩ = true := by
        simp [isPemFile, hext]
      have hp2 : isPemFile ⟨fn, true, c2⟩ = true := by
        simp [isPemFile, hext2]
      cases hn : osStrToStr (splitFileAtDot fn).1 with
      | some name =>
        rw [runEntry_pem ⟨fn, true, c1⟩ name hp1 hn,
          runEntry_pem ⟨fn, true, c2⟩ name hp2 hn, h name]
      | none =>
        rw [runEntry_pem_panic ⟨fn, true, c1⟩ hp1 hn,
          runEntry_pem_panic ⟨fn, true, c2⟩ hp2 hn]
    · have hext2 :
          (entryPath ⟨fn, true, c2⟩).extension ≠ some (asciiBytes "pem") := hext
      rw [runEntry_notPem ⟨fn, true, c1⟩ hext, runEntry_notPem ⟨fn, true, c2⟩ hext2]

theorem runEntry_erase (e : DirEntry) :
    runEntry ⟨e.fileName, e.isFile, eraseRecordSecret e.content⟩ =
      runEntry e := by
  have h := runEntry_content_congr e.fileName e.isFile
    (eraseRecordSecret e.content) e.content
    (fun name => showEthForList_erase name e.content)
  exact h

theorem listLoop_erase (es : List (Option DirEntry)) :
    listLoop (es.map (Option.map
      (fun e => { e with content := eraseRecordSecret e.content }))) =
      listLoop es := by
  induction es with
  | nil => rfl
  | cons a es ih =>
    cases a with
    | none => rfl
    | some e =>
      simp only [List.map_cons, Option.map_some, listLoop, runEntry_erase e, ih]

/-- Modelled from the spec: one full derivation run — `derive_from_mnemonic`
followed by the chain adapter computations — executed in a process whose
entropy source is in state `rng`; per §4.1 derivation reads only the
mnemonic, chain and account index, never the entropy source, so `rng` is
available to the run but unused. -/
def deriveRun (checksumOk : List String → Bool) (_rng : Rng)
    (ws : List String) (c : Chain) (accountIndex : Nat) :
    Except KeystoreError (Bytes × Bytes × String × String) :=
  match derive_from_mnemonic checksumOk ws c accountIndex with
  | .error e => .error e
  | .ok (k, path) =>
    .ok (k, public_key_from_private c k,
      address_from_public_key c (public_key_from_private c k), path)

theorem lookupKey_filter_ne (st : Store) (n : String) :
    lookupKey (st.filter (fun p => decide (p.1 ≠ n))) n = none := by
  induction st with
  | nil => rfl
  | cons p st ih =>
    obtain ⟨k, r⟩ := p
    by_cases hp : k = n
    · rw [List.filter_cons, show (decide ((k, r).1 ≠ n)) = false by simp [hp]]
      simpa using ih
    · rw [List.filter_cons, show (decide ((k, r).1 ≠ n)) = true by simp [hp]]
      simp only [if_true, lookupKey, if_neg hp]
      exact ih

/-! ## Concrete sample data for witness instantiations -/

/-- A parsed Ethereum key record used in witnesses. -/
def sampleEthRecord : KeyRecord := ⟨"alice", .ethereum, [1], "0xq", [9], none⟩

/-- A pem-named directory entry whose record file is corrupt. -/
def sampleCorruptEntry : DirEntry := ⟨asciiBytes "bad.pem", true, .corrupt⟩

/-- A pem-named directory entry with a valid record. -/
def sampleValidEntry : DirEntry :=
  ⟨asciiBytes "alice.pem", true, .valid sampleEthRecord⟩

/-- A temp file left by an interrupted Add (final extension `tmp`). -/
def sampleTmpEntry : DirEntry :=
  ⟨asciiBytes "alice.pem.tmp", true, .valid sampleEthRecord⟩

/-- A non-pem file entry. -/
def sampleTxtEntry : DirEntry := ⟨asciiBytes "notes.txt", true, .corrupt⟩

/-- A corrupt pem record whose file stem (`bad` followed by byte `0xFF`)
is not valid UTF-8. -/
def sampleBadNameEntry : DirEntry :=
  ⟨asciiBytes "bad" ++ [255] ++ asciiBytes ".pem", true, .corrupt⟩

/-- A private-key byte string used in witnesses. -/
def sampleKeyBytes : Bytes := [5]

/-- `sampleKeyBytes` encrypted under passphrase `"pw"`. -/
def sampleBlob : Bytes := encryptSecret sampleKeyBytes "pw" [1] [2]

/-- A stored record whose secret decrypts under `"pw"`. -/
def sampleShowRecord : KeyRecord := ⟨"alice", .ethereum, [0], "0x", sampleBlob, none⟩

/-- A one-record store for the Show witness. -/
def sampleShowStore : Store := [("alice", sampleShowRecord)]

/-- A Cosmos record used in the rename witness. -/
def sampleRenameRecord : KeyRecord := ⟨"bob", .cosmos, [3], "cosmos1x", [4], none⟩

/-- A one-record store for the rename witness. -/
def sampleRenameStore : Store := [("bob", sampleRenameRecord)]

/-! ## The claims -/

/-- Claim C1, counterexample to the unrestricted statement: over a
directory containing a corrupt record file whose pem stem is not valid
UTF-8 (followed by a perfectly valid record), Ethereum List aborts the
process — the `to_str().unwrap()` on the entry's stem panics — instead of
skipping and reporting the corrupt entry and returning the remaining valid
record's metadata. -/
theorem claim_C1_counterexample :
    listEthRun (.ok [some sampleBadNameEntry, some sampleValidEntry]) =
      .panicked "called `Option::unwrap()` on a `None` value" := by decide

/-- Claim C1 (amended with the no-panic precondition): for every keystore
directory state whose pem entries have valid UTF-8 stems — in particular
any such state in which some record file exists but fails to parse —
Ethereum List does not abort: it completes normally, the unparseable
entries are each reported as corrupt, and the metadata of every remaining
valid record is still returned. -/
theorem claim_C1_corrupt_isolated (es : List DirEntry)
    (hnames : ∀ e ∈ es, NameOk e) :
    ∃ outs, listEthRun (.ok (es.map some)) = .ok outs ∧
      (∀ e ∈ es, isPemFile e = true → e.content = .corrupt →
        ShowReport.corruptReport (stemName e) ∈ outs) ∧
      (∀ e ∈ es, ∀ r, isPemFile e = true → e.content = .valid r →
        ShowReport.identity r.name r.chain r.publicKey r.address ∈ outs) := by
  refine ⟨ethListSpec es, ?_, ?_, ?_⟩
  · show listLoop (es.map some) = .ok (ethListSpec es)
    exact listLoop_spec es hnames
  · intro e he hpem hc
    unfold ethListSpec
    rw [List.mem_flatMap]
    refine ⟨e, he, ?_⟩
    rw [if_pos hpem, hc]
    simp [showEthForList]
  · intro e he r hpem hc
    unfold ethListSpec
    rw [List.mem_flatMap]
    refine ⟨e, he, ?_⟩
    rw [if_pos hpem, hc]
    simp [showEthForList]

theorem claim_C1_witness :
    ∃ outs,
      listEthRun (.ok ([sampleCorruptEntry, sampleValidEntry].map some)) =
        .ok outs ∧
      ShowReport.corruptReport "bad" ∈ outs ∧
      ShowReport.identity "alice" .ethereum [1] "0xq" ∈ outs := by
  obtain ⟨outs, h1, h2, h3⟩ :=
    claim_C1_corrupt_isolated [sampleCorruptEntry, sampleValidEntry] (by decide)
  refine ⟨outs, h1, ?_, ?_⟩
  · have h := h2 sampleCorruptEntry (by simp) (by decide) rfl
    rwa [show stemName sampleCorruptEntry = "bad" by decide] at h
  · exact h3 sampleValidEntry (by simp) sampleEthRecord (by decide) rfl

/-- Claim C2, counterexample: at the concrete input where `read_dir` fails,
`ListEthKeyCmd::run` panics (aborting the process) instead of returning any
value — so no typed `StorageIOError` is surfaced to the caller. -/
theorem claim_C2_counterexample :
    listEthRun .ioErr = .panicked "Could not read keystore" ∧
    ¬ ∃ outs, listEthRun .ioErr = .ok outs := by
  refine ⟨rfl, ?_⟩
  rintro ⟨outs, h⟩
  simp [listEthRun] at h

/-- Claim C2, amended: when reading the keystore directory fails,
`ListEthKeyCmd::run` aborts the process by panicking with
"Could not read keystore" (the `expect` at the `read_dir` call), and when
retrieving an individual directory entry fails it aborts via `unwrap`; no
typed error is returned. -/
theorem claim_C2_amended_fs_failure_aborts :
    listEthRun .ioErr = .panicked "Could not read keystore" ∧
    ∀ rest, listEthRun (.ok (none :: rest)) =
      .panicked "called `Result::unwrap()` on an `Err` value" :=
  ⟨rfl, fun _ => rfl⟩

/-- Claim C3: List's output is unchanged when every record's
`encrypted_secret` is erased (so no secret, and nothing derived from one,
ever appears in it, and List never decrypts), and every successful Show
output is exactly the four-field public identity — name, chain, public key
and address — where the public key is the adapter image of the decrypted
key; neither operation's output type has a field for `encrypted_secret` or
raw private key bytes. -/
theorem claim_C3_no_secret_leak :
    (∀ d : ReadDirResult, listEthRun (eraseSecrets d) = listEthRun d) ∧
    (∀ (st : Store) (n : String) (c : Chain) (pass : String)
        (disp : KeyIdentity), showOp st n c pass = .ok disp →
      ∃ r k, lookupKey st n = some r ∧
        decryptSecret r.encryptedSecret pass = .ok k ∧
        disp = ⟨r.name, r.chain, public_key_from_private c k,
          address_from_public_key c (public_key_from_private c k)⟩) := by
  constructor
  · intro d
    cases d with
    | ioErr => rfl
    | ok es => exact listLoop_erase es
  · intro st n c pass disp h
    cases hl : lookupKey st n with
    | none =>
      rw [show showOp st n c pass = .error .notFound by
        unfold showOp; rw [hl]] at h
      simp at h
    | some r =>
      have hs : showOp st n c pass =
          match decryptSecret r.encryptedSecret pass with
          | .error e => .error e
          | .ok k => .ok ⟨r.name, r.chain, public_key_from_private c k,
              address_from_public_key c (public_key_from_private c k)⟩ := by
        unfold showOp; rw [hl]
      rw [hs] at h
      cases hd : decryptSecret r.encryptedSecret pass with
      | error e2 => rw [hd] at h; simp at h
      | ok k =>
        rw [hd] at h
        refine ⟨r, k, rfl, hd, ?_⟩
        have h2 := h
        simp only [Except.ok.injEq] at h2
        exact h2.symm

theorem claim_C3_witness :
    ∃ r k, lookupKey sampleShowStore "alice" = some r ∧
      decryptSecret r.encryptedSecret "pw" = .ok k ∧
      (⟨"alice", Chain.ethereum,
        public_key_from_private .ethereum sampleKeyBytes,
        address_from_public_key .ethereum
          (public_key_from_private .ethereum sampleKeyBytes)⟩ : KeyIdentity) =
      ⟨r.name, r.chain, public_key_from_private .ethereum k,
        address_from_public_key .ethereum
          (public_key_from_private .ethereum k)⟩ :=
  claim_C3_no_secret_leak.2 sampleShowStore "alice" .ethereum "pw" _ rfl

/-- Claim C4: a file whose final extension is not `"pem"` — in particular a
temp file left by an interrupted Add — is invisible to Ethereum List: the
run over a directory containing it equals the run over the directory with
that file removed. -/
theorem claim_C4_nonpem_invisible (pre post : List (Option DirEntry))
    (e : DirEntry) (_hfile : e.isFile = true)
    (hext : (entryPath e).extension ≠ some (asciiBytes "pem")) :
    listEthRun (.ok (pre ++ some e :: post)) =
      listEthRun (.ok (pre ++ post)) := by
  show listLoop (pre ++ some e :: post) = listLoop (pre ++ post)
  exact listLoop_skip_middle pre post e (runEntry_notPem e hext)

theorem claim_C4_witness :
    listEthRun (.ok ([] ++ some sampleTmpEntry :: [some sampleValidEntry])) =
      listEthRun (.ok ([] ++ [some sampleValidEntry])) :=
  claim_C4_nonpem_invisible [] [some sampleValidEntry] sampleTmpEntry rfl
    (by decide)

/-- Claim C5: the command layer exposes exactly the six keystore
operations — Add, Import, Delete, Rename, List, Show — and no others
(every `CosmosKeysCmd` is one of the six variants), and each dispatches to
an operation returning either a success value or a typed error. -/
theorem claim_C5_six_operations :
    (∀ cmd : CosmosKeysCmd,
      (∃ a, cmd = .Add a) ∨ (∃ a, cmd = .Import a) ∨ (∃ a, cmd = .Delete a) ∨
      (∃ a, cmd = .Rename a) ∨ (∃ a, cmd = .List a) ∨ (∃ a, cmd = .Show a)) ∧
    (∀ (co : List String → Bool) (rng : Rng) (pass : String)
        (salt nonce : Bytes) (st : Store) (cmd : CosmosKeysCmd),
      (∃ e, (runCosmosKeysCmd co rng pass salt nonce st cmd).1 = .error e) ∨
      (∃ v, (runCosmosKeysCmd co rng pass salt nonce st cmd).1 = .ok v)) := by
  constructor
  · intro cmd
    cases cmd with
    | Add a => exact Or.inl ⟨a, rfl⟩
    | Import a => exact Or.inr (Or.inl ⟨a, rfl⟩)
    | Delete a => exact Or.inr (Or.inr (Or.inl ⟨a, rfl⟩))
    | Rename a => exact Or.inr (Or.inr (Or.inr (Or.inl ⟨a, rfl⟩)))
    | List a => exact Or.inr (Or.inr (Or.inr (Or.inr (Or.inl ⟨a, rfl⟩))))
    | Show a => exact Or.inr (Or.inr (Or.inr (Or.inr (Or.inr ⟨a, rfl⟩))))
  · intro co rng pass salt nonce st cmd
    cases h : (runCosmosKeysCmd co rng pass salt nonce st cmd).1 with
    | error e => exact Or.inl ⟨e, rfl⟩
    | ok v => exact Or.inr ⟨v, rfl⟩

theorem renameOp_some (st : Store) (old nw : String) (r : KeyRecord)
    (hl : lookupKey st old = some r) :
    renameOp st old nw =
      (if (lookupKey st nw).isSome then (.error .nameAlreadyExists, st)
       else (.ok (), (nw, { r with name := nw }) ::
         st.filter (fun p => decide (p.1 ≠ old)))) := by
  unfold renameOp; rw [hl]

/-- Claim C6: rename either fully succeeds — afterwards the new name (and
only it) refers to the record, whose content (address, public key, chain,
encrypted secret) is unchanged — or fails with `NotFound` (old name
absent) or `NameAlreadyExists` (new name taken), and every failure leaves
the store exactly as it was; in no outcome do both names, or neither name,
refer to the record. -/
theorem claim_C6_rename_atomic (st : Store) (old nw : String)
    (h : old ≠ nw) :
    (∀ st2, renameOp st old nw = (.ok (), st2) →
      ∃ r, lookupKey st old = some r ∧
        lookupKey st2 nw = some { r with name := nw } ∧
        lookupKey st2 old = none ∧
        ({ r with name := nw }).address = r.address ∧
        ({ r with name := nw }).publicKey = r.publicKey ∧
        ({ r with name := nw }).chain = r.chain ∧
        ({ r with name := nw }).encryptedSecret = r.encryptedSecret) ∧
    (lookupKey st old = none →
      renameOp st old nw = (.error .notFound, st)) ∧
    (∀ r, lookupKey st old = some r → (lookupKey st nw).isSome = true →
      renameOp st old nw = (.error .nameAlreadyExists, st)) ∧
    (∀ err st2, renameOp st old nw = (.error err, st2) → st2 = st) := by
  refine ⟨?_, ?_, ?_, ?_⟩
  · intro st2 hok
    cases hl : lookupKey st old with
    | none =>
      rw [show renameOp st old nw = (.error .notFound, st) by
        unfold renameOp; rw [hl]] at hok
      simp at hok
    | some r =>
      rw [renameOp_some st old nw r hl] at hok
      by_cases hn : (lookupKey st nw).isSome
      · rw [if_pos hn] at hok; simp at hok
      · rw [if_neg hn] at hok
        have hst2 := (congrArg Prod.snd hok).symm
        subst hst2
        refine ⟨r, rfl, ?_, ?_, rfl, rfl, rfl, rfl⟩
        · simp [lookupKey]
        · have hne : ¬ (nw = old) := fun hcontra => h hcontra.symm
          simp only [lookupKey, if_neg hne]
          exact lookupKey_filter_ne st old
  · intro hnone
    unfold renameOp; rw [hnone]
  · intro r hr hsome
    rw [renameOp_some st old nw r hr, if_pos hsome]
  · intro err st2 herr
    cases hl : lookupKey st old with
    | none =>
      rw [show renameOp st old nw = (.error .notFound, st) by
        unfold renameOp; rw [hl]] at herr
      exact (congrArg Prod.snd herr).symm
    | some r =>
      rw [renameOp_some st old nw r hl] at herr
      by_cases hn : (lookupKey st nw).isSome
      · rw [if_pos hn] at herr
        exact (congrArg Prod.snd herr).symm
      · rw [if_neg hn] at herr
        exact absurd (congrArg Prod.fst herr) (by simp)

theorem claim_C6_witness :
    ∃ r, lookupKey sampleRenameStore "bob" = some r ∧
      lookupKey [("robert", { sampleRenameRecord with name := "robert" })]
        "robert" = some { r with name := "robert" } ∧
      lookupKey [("robert", { sampleRenameRecord with name := "robert" })]
        "bob" = none ∧
      ({ r with name := "robert" }).address = r.address ∧
      ({ r with name := "robert" }).publicKey = r.publicKey ∧
      ({ r with name := "robert" }).chain = r.chain ∧
      ({ r with name := "robert" }).encryptedSecret = r.encryptedSecret :=
  (claim_C6_rename_atomic sampleRenameStore "bob" "robert" (by decide)).1
    [("robert", { sampleRenameRecord with name := "robert" })] rfl

/-- Claim C7: for every invalid mnemonic — word count not in
12/15/18/21/24, or a failed checksum — and every store state, Import fails
with `InvalidMnemonic` and performs no store mutation: the resulting store
is exactly the input store. -/
theorem claim_C7_import_invalid (co : List String → Bool) (st : Store)
    (n : String) (c : Chain) (ws : List String) (pass : String)
    (salt nonce : Bytes)
    (h : ws.length ∉ validWordCounts ∨ co ws = false) :
    importOp co st n c ws pass salt nonce = (.error .invalidMnemonic, st) := by
  have hv : validateMnemonic co ws = false := by
    unfold validateMnemonic
    rcases h with h | h
    · simp [h]
    · simp [h]
  simp [importOp, derive_from_mnemonic, hv]

theorem claim_C7_witness :
    importOp (fun _ => true) [] "alice" .cosmos (List.replicate 13 "abandon")
      "pw" [] [] = (.error .invalidMnemonic, []) :=
  claim_C7_import_invalid (fun _ => true) [] "alice" .cosmos
    (List.replicate 13 "abandon") "pw" [] [] (Or.inl (by decide))

/-- Claim C8: derivation from a mnemonic is deterministic — two runs with
identical mnemonic, chain and account index yield identical results
(private key, public key, address and path), whatever the state of the
process's entropy source during each run. -/
theorem claim_C8_derive_deterministic (co : List String → Bool)
    (ws : List String) (c : Chain) (i : Nat) (rng1 rng2 : Rng) :
    deriveRun co rng1 ws c i = deriveRun co rng2 ws c i := rfl

/-- Claim C9: Ethereum List processes a directory entry — extracting its
name and invoking Show — exactly when the entry is a regular file whose
extension is exactly `"pem"`; every other entry is skipped silently,
producing no report, error or output. -/
theorem claim_C9_processes_iff (e : DirEntry) :
    (runEntry e = .ok [] ↔
      ¬(e.isFile = true ∧
        (entryPath e).extension = some (asciiBytes "pem"))) ∧
    ((e.isFile = true ∧ (entryPath e).extension = some (asciiBytes "pem")) →
      (∃ name, osStrToStr (splitFileAtDot e.fileName).1 = some name ∧
        runEntry e = .ok [showEthForList name e.content]) ∨
      (osStrToStr (splitFileAtDot e.fileName).1 = none ∧
        runEntry e = .panicked "called `Option::unwrap()` on a `None` value")) := by
  have hiff : isPemFile e = true ↔
      (e.isFile = true ∧
        (entryPath e).extension = some (asciiBytes "pem")) := by
    unfold isPemFile
    rw [Bool.and_eq_true]
    simp [decide_eq_true_eq]
  constructor
  · constructor
    · intro h0 hcond
      have hpem : isPemFile e = true := hiff.mpr hcond
      cases hn : osStrToStr (splitFileAtDot e.fileName).1 with
      | some name =>
        rw [runEntry_pem e name hpem hn] at h0
        simp at h0
      | none =>
        rw [runEntry_pem_panic e hpem hn] at h0
        simp at h0
    · intro hcond
      have hpem : isPemFile e = false := by
        cases hp : isPemFile e with
        | false => rfl
        | true => exact absurd (hiff.mp hp) hcond
      exact runEntry_skip e hpem
  · intro hcond
    have hpem : isPemFile e = true := hiff.mpr hcond
    cases hn : osStrToStr (splitFileAtDot e.fileName).1 with
    | some name => exact Or.inl ⟨name, rfl, runEntry_pem e name hpem hn⟩
    | none => exact Or.inr ⟨rfl, runEntry_pem_panic e hpem hn⟩

theorem claim_C9_witness : runEntry sampleTxtEntry = .ok [] :=
  (claim_C9_processes_iff sampleTxtEntry).1.mpr (by decide)

/-- Claim C10: per-entry name extraction cannot hit the `None` branches of
its unwraps: whenever `extension()` returns `Some`, `file_stem()` returns
`Some`; a stem that is valid UTF-8 makes `to_str()` return `Some`; and an
entry whose stem is valid UTF-8 can never make the List loop body panic. -/
theorem claim_C10_name_extraction_safe (p : RPath) (ext : Bytes)
    (hext : p.extension = some ext) :
    (∃ s, p.fileStem = some s) ∧
    (∀ s, p.fileStem = some s → ValidUtf8 s →
      ∃ str, osStrToStr s = some str) ∧
    (∀ e : DirEntry, entryPath e = p →
      ValidUtf8 (splitFileAtDot e.fileName).1 →
      ∀ m, runEntry e ≠ .panicked m) := by
  refine ⟨?_, ?_, ?_⟩
  · cases hf : p.fileName with
    | none =>
      exfalso
      unfold RPath.extension at hext
      rw [hf] at hext
      simp at hext
    | some bs =>
      refine ⟨(splitFileAtDot bs).1, ?_⟩
      unfold RPath.fileStem
      rw [hf]
  · intro s hs hutf
    obtain ⟨cs, hsc, henc⟩ := hutf
    refine ⟨String.mk (cs.map Char.ofNat), ?_⟩
    unfold osStrToStr
    rw [← henc, utf8Decode_encode cs hsc]
    rfl
  · intro e hep hutf m hcontra
    obtain ⟨cs, hsc, henc⟩ := hutf
    have hsome : osStrToStr (splitFileAtDot e.fileName).1 =
        some (String.mk (cs.map Char.ofNat)) := by
      unfold osStrToStr
      rw [← henc, utf8Decode_encode cs hsc]
      rfl
    cases hpem : isPemFile e with
    | false =>
      rw [runEntry_skip e hpem] at hcontra
      simp at hcontra
    | true =>
      rw [runEntry_pem e _ hpem hsome] at hcontra
      simp at hcontra

theorem claim_C10_witness :
    (∃ s, (RPath.mk (some (asciiBytes "alice.pem"))).fileStem = some s) ∧
    (∃ str, osStrToStr (asciiBytes "alice") = some str) := by
  have h := claim_C10_name_extraction_safe ⟨some (asciiBytes "alice.pem")⟩
    (asciiBytes "pem") (by decide)
  refine ⟨h.1, ?_⟩
  exact h.2.1 (asciiBytes "alice") (by decide)
    ⟨[97, 108, 105, 99, 101], by decide, by decide⟩

end GravityKeys
